import Mathlib

/-!
# Verification of the `thread_pool::ThreadPool` executor core

Shallow embedding of `src/src/My_test/My_thread_pool.hpp` (the final-stage
`ThreadPool` class).  The queue discipline is `std::priority_queue<PriorityTask>`
with `operator<` comparing only the `priority` field; we model the underlying
binary max-heap with the exact element movement performed by libstdc++'s
`std::push_heap` / `std::pop_heap` (`bits/stl_heap.h`), which is what
`std::priority_queue::push` / `::pop` call.  Pool state and the operations
`submit`, `worker_thread`, `execute_task`, `shutdown`, `shutdown_now` and the
query surface are embedded as pure state-passing functions; the lock-protected
critical sections of the C++ code become atomic state transitions.
-/

namespace ThreadPoolSpec

/-- `enum class Priority { LOW = 0, NORMAL = 1, HIGH = 2, CRITICAL = 3 }`. -/
inductive Priority
  | LOW
  | NORMAL
  | HIGH
  | CRITICAL
deriving DecidableEq, Repr

/-- The underlying integral value of the `Priority` enumerator. -/
def Priority.toNat : Priority → Nat
  | .LOW => 0
  | .NORMAL => 1
  | .HIGH => 2
  | .CRITICAL => 3

/-- A submitted task as the model sees it: its priority, its arrival sequence
number (position in submission order, used only to *observe* ordering — the
C++ `PriorityTask` stores no such field), whether its payload throws when run,
and the measured execution duration in microseconds. -/
structure Task where
  priority : Priority
  arrival : Nat
  throws : Bool
  execTime : Nat
deriving DecidableEq, Repr

/-- Default element, used only to totalize list indexing. -/
def dTask : Task := ⟨Priority.LOW, 0, false, 0⟩

/-- `PriorityTask::operator<`: `return priority < other.priority;` — the
comparator looks at the priority only. -/
def ltPT (a b : Task) : Prop := a.priority.toNat < b.priority.toNat

instance : DecidablePred fun p : Task × Task => ltPT p.1 p.2 := fun _ => by
  unfold ltPT; infer_instance

instance (a b : Task) : Decidable (ltPT a b) := by
  unfold ltPT; infer_instance

/-! ## Total list indexing helpers (the heap's underlying array) -/

/-- Read index `i` of the heap array (out of range gives `dTask`). -/
def hget : List Task → Nat → Task
  | [], _ => dTask
  | a :: _, 0 => a
  | _ :: l, i + 1 => hget l i

/-- Write index `i` of the heap array (out of range: no-op). -/
def hset : List Task → Nat → Task → List Task
  | [], _, _ => []
  | _ :: l, 0, v => v :: l
  | a :: l, i + 1, v => a :: hset l i v

/-- Exchange the entries at indices `i` and `j`. -/
def hswap (l : List Task) (i j : Nat) : List Task :=
  hset (hset l i (hget l j)) j (hget l i)

@[simp] theorem length_hset (l : List Task) (i : Nat) (v : Task) :
    (hset l i v).length = l.length := by
  induction l generalizing i with
  | nil => rfl
  | cons a l ih => cases i with
    | zero => rfl
    | succ i => simpa [hset] using ih i

@[simp] theorem length_hswap (l : List Task) (i j : Nat) :
    (hswap l i j).length = l.length := by
  simp [hswap]

theorem hget_hset_eq (l : List Task) (i : Nat) (v : Task) (h : i < l.length) :
    hget (hset l i v) i = v := by
  induction l generalizing i with
  | nil => simp at h
  | cons a l ih => cases i with
    | zero => rfl
    | succ i => simpa [hset, hget] using ih i (by simpa using h)

theorem hget_hset_ne (l : List Task) (i j : Nat) (v : Task) (h : j ≠ i) :
    hget (hset l i v) j = hget l j := by
  induction l generalizing i j with
  | nil => rfl
  | cons a l ih => cases i with
    | zero => cases j with
      | zero => exact absurd rfl h
      | succ j => rfl
    | succ i => cases j with
      | zero => rfl
      | succ j => simpa [hset, hget] using ih i j (by omega)

theorem hget_hswap_left (l : List Task) (i j : Nat) (hi : i < l.length) :
    hget (hswap l i j) i = hget l j := by
  rcases eq_or_ne j i with rfl | hne
  · simpa [hswap] using hget_hset_eq _ j _ (by simpa using hi)
  · unfold hswap
    rw [hget_hset_ne _ j i _ (by omega), hget_hset_eq _ i _ hi]

theorem hget_hswap_right (l : List Task) (i j : Nat) (hj : j < l.length) :
    hget (hswap l i j) j = hget l i := by
  unfold hswap
  rw [hget_hset_eq _ j _ (by simpa using hj)]

theorem hget_hswap_ne (l : List Task) (i j k : Nat) (hki : k ≠ i) (hkj : k ≠ j) :
    hget (hswap l i j) k = hget l k := by
  unfold hswap
  rw [hget_hset_ne _ j k _ hkj, hget_hset_ne _ i k _ hki]

theorem hget_append_lt (l m : List Task) (i : Nat) (h : i < l.length) :
    hget (l ++ m) i = hget l i := by
  induction l generalizing i with
  | nil => simp at h
  | cons a l ih => cases i with
    | zero => rfl
    | succ i => simpa [hget] using ih i (by simpa using h)

theorem hget_take (l : List Task) (m i : Nat) (h : i < m) :
    hget (l.take m) i = hget l i := by
  induction l generalizing m i with
  | nil => simp
  | cons a l ih =>
    cases m with
    | zero => omega
    | succ m => cases i with
      | zero => rfl
      | succ i => simpa [hget] using ih m i (by omega)

/-! ## The binary max-heap of `std::priority_queue<PriorityTask>`

`std::priority_queue::push` does `push_back` then `std::push_heap`;
`::pop` does `std::pop_heap` then `pop_back`; `::top` reads `front()`.
We model the element movement of libstdc++'s `__push_heap` and
`__adjust_heap`/`__pop_heap` (GCC `bits/stl_heap.h`) exactly; `__push_heap`'s
hole optimisation writes the same final array as the swap loop below.  The
recursions are fuel-structured so that every definition computes by kernel
reduction; the fuel supplied at the wrappers is always sufficient (the sift-up
index strictly decreases, the sift-down index strictly increases below
`len`). -/

/-- `__push_heap`: sift the entry at `hole` up while its parent compares
less (`comp(parent, value)`). -/
def siftUpF : Nat → List Task → Nat → List Task
  | 0, l, _ => l
  | fuel + 1, l, hole =>
    if hole = 0 then l
    else if ltPT (hget l ((hole - 1) / 2)) (hget l hole) then
      siftUpF fuel (hswap l ((hole - 1) / 2) hole) ((hole - 1) / 2)
    else l

def siftUp (l : List Task) (hole : Nat) : List Task := siftUpF hole l hole

/-- `__adjust_heap`'s `secondChild` selection: the right child `2*(hole+1)`,
replaced by the left child when the right compares less. -/
def sdChild (l : List Task) (hole : Nat) : Nat :=
  if ltPT (hget l (2 * (hole + 1))) (hget l (2 * (hole + 1) - 1)) then
    2 * (hole + 1) - 1
  else 2 * (hole + 1)

/-- Phase one of `__adjust_heap`: move the hole down along the
larger-child path while it has two children. -/
def holeDownF : Nat → List Task → Nat → Nat → List Task × Nat
  | 0, l, hole, _ => (l, hole)
  | fuel + 1, l, hole, len =>
    if hole < (len - 1) / 2 then
      holeDownF fuel (hset l hole (hget l (sdChild l hole))) (sdChild l hole) len
    else (l, hole)

/-- `__adjust_heap`'s even-length fix-up: when the hole stopped at the unique
node with a single (left) child, move that child up and the hole to it. -/
def fixupPos (l : List Task) (len : Nat) : List Task × Nat :=
  if len % 2 = 0 ∧ (holeDownF len l 0 len).2 = (len - 2) / 2 then
    (hset (holeDownF len l 0 len).1 (holeDownF len l 0 len).2
        (hget (holeDownF len l 0 len).1
          (2 * ((holeDownF len l 0 len).2 + 1) - 1)),
      2 * ((holeDownF len l 0 len).2 + 1) - 1)
  else holeDownF len l 0 len

/-- `__adjust_heap(first, 0, len, value)`: hole down along the larger-child
path, then the even-length fix-up, then `__push_heap` the popped-off `value`
back up from the hole. -/
def adjustHeap (l : List Task) (value : Task) : List Task :=
  siftUp (hset (fixupPos l l.length).1 (fixupPos l l.length).2 value)
    (fixupPos l l.length).2

/-- `priority_queue::push`: `push_back` + `std::push_heap`. -/
def pushQ (q : List Task) (t : Task) : List Task := siftUp (q ++ [t]) q.length

/-- `priority_queue::top` + `::pop`: read `front()`, then `std::pop_heap`
(which moves the last element out as `value`, copies the root into the last
slot for removal, and `__adjust_heap`s the remaining `len = n-1` prefix) and
`pop_back`.  `pop_heap` is a no-op on a one-element range. -/
def popQ (q : List Task) : Option (Task × List Task) :=
  match q with
  | [] => none
  | [x] => some (x, [])
  | _ =>
    some (hget q 0, adjustHeap (q.take (q.length - 1)) (hget q (q.length - 1)))

/-- Drain the queue: the sequence of tasks obtained by popping until empty. -/
def popAllF : Nat → List Task → List Task
  | 0, _ => []
  | fuel + 1, q =>
    match popQ q with
    | none => []
    | some (t, rest) => t :: popAllF fuel rest

def popAll (q : List Task) : List Task := popAllF q.length q

/-- The max-heap invariant of the underlying array: no parent compares less
than a child. -/
def isHeap (l : List Task) : Prop :=
  ∀ j, j < l.length → 0 < j → ¬ ltPT (hget l ((j - 1) / 2)) (hget l j)

instance (l : List Task) : Decidable (isHeap l) := by
  unfold isHeap; infer_instance

/-! ## Heap-invariant preservation -/

/-- All parent/child pairs satisfy the heap relation, except possibly the pair
linking `hole` to its parent. -/
def heapExceptAt (l : List Task) (hole : Nat) : Prop :=
  ∀ j, j < l.length → 0 < j → j ≠ hole → ¬ ltPT (hget l ((j - 1) / 2)) (hget l j)

/-- The children of `hole` do not compare greater than the entry at `hole`'s
parent (vacuous at the root). -/
def grandCond (l : List Task) (hole : Nat) : Prop :=
  ∀ c, c < l.length → 0 < c → (c - 1) / 2 = hole → 0 < hole →
    ¬ ltPT (hget l ((hole - 1) / 2)) (hget l c)

theorem siftUpF_isHeap : ∀ fuel l hole, hole ≤ fuel → hole < l.length →
    heapExceptAt l hole → grandCond l hole → isHeap (siftUpF fuel l hole)
  | 0, l, hole, hfuel, _hlen, hA, _hB => by
    have h0 : hole = 0 := Nat.le_zero.mp hfuel
    subst h0
    intro j hj hj0
    exact hA j hj hj0 (by omega)
  | fuel + 1, l, hole, hfuel, hlen, hA, hB => by
    by_cases h0 : hole = 0
    · subst h0
      simp only [siftUpF, if_pos rfl]
      intro j hj hj0
      exact hA j hj hj0 (by omega)
    · have hp : (hole - 1) / 2 < hole := by omega
      by_cases hlt : ltPT (hget l ((hole - 1) / 2)) (hget l hole)
      · rw [siftUpF, if_neg h0, if_pos hlt]
        set p := (hole - 1) / 2 with hpdef
        have hplen : p < l.length := lt_trans hp hlen
        apply siftUpF_isHeap fuel _ p (by omega) (by simpa using hplen)
        · -- heapExceptAt (hswap l p hole) p
          intro j hj hj0 hjp
          rw [length_hswap] at hj
          by_cases hjh : j = hole
          · subst hjh
            rw [← hpdef, hget_hswap_left _ _ _ hplen, hget_hswap_right _ _ _ hlen]
            simp only [ltPT] at hlt ⊢
            omega
          · by_cases hparh : (j - 1) / 2 = hole
            · have hjgt : 2 * hole + 1 ≤ j := by omega
              rw [hparh, hget_hswap_right _ _ _ hlen,
                hget_hswap_ne _ _ _ _ (by omega) (by omega)]
              exact hB j hj hj0 hparh (by omega)
            · by_cases hparp : (j - 1) / 2 = p
              · rw [hparp, hget_hswap_left _ _ _ hplen,
                  hget_hswap_ne _ _ _ _ hjp hjh]
                have h1 := hA j hj hj0 hjh
                rw [hparp] at h1
                simp only [ltPT] at h1 hlt ⊢
                omega
              · have hparnp : (j - 1) / 2 ≠ p := hparp
                rw [hget_hswap_ne _ _ _ _ hparnp hparh,
                  hget_hswap_ne _ _ _ _ hjp hjh]
                exact hA j hj hj0 hjh
        · -- grandCond (hswap l p hole) p
          intro c hc hc0 hcp hp0
          rw [length_hswap] at hc
          have hpp : (p - 1) / 2 < p := by omega
          have hcgt : 2 * p + 1 ≤ c := by omega
          rw [hget_hswap_ne _ _ _ _ (by omega) (by omega)]
          by_cases hch : c = hole
          · subst hch
            rw [hget_hswap_right _ _ _ hlen]
            exact hA p hplen hp0 (by omega)
          · rw [hget_hswap_ne _ _ _ _ (by omega) hch]
            have h1 := hA c hc hc0 hch
            rw [hcp] at h1
            have h2 := hA p hplen hp0 (by omega)
            simp only [ltPT] at h1 h2 ⊢
            omega
      · rw [siftUpF, if_neg h0, if_neg hlt]
        intro j hj hj0
        by_cases hjh : j = hole
        · subst hjh; exact hlt
        · exact hA j hj hj0 hjh

theorem siftUp_isHeap (l : List Task) (hole : Nat) (hlen : hole < l.length)
    (hA : heapExceptAt l hole) (hB : grandCond l hole) :
    isHeap (siftUp l hole) :=
  siftUpF_isHeap hole l hole le_rfl hlen hA hB

theorem length_siftUpF : ∀ fuel l hole, (siftUpF fuel l hole).length = l.length
  | 0, _, _ => rfl
  | fuel + 1, l, hole => by
    by_cases h0 : hole = 0
    · simp [siftUpF, h0]
    · by_cases hlt : ltPT (hget l ((hole - 1) / 2)) (hget l hole)
      · rw [siftUpF, if_neg h0, if_pos hlt, length_siftUpF fuel, length_hswap]
      · rw [siftUpF, if_neg h0, if_neg hlt]

theorem length_holeDownF : ∀ fuel l hole len,
    (holeDownF fuel l hole len).1.length = l.length
  | 0, _, _, _ => rfl
  | fuel + 1, l, hole, len => by
    by_cases hc : hole < (len - 1) / 2
    · rw [holeDownF, if_pos hc, length_holeDownF fuel, length_hset]
    · rw [holeDownF, if_neg hc]

theorem length_fixupPos (l : List Task) (len : Nat) :
    (fixupPos l len).1.length = l.length := by
  unfold fixupPos
  by_cases hfix : len % 2 = 0 ∧ (holeDownF len l 0 len).2 = (len - 2) / 2
  · rw [if_pos hfix]
    simp only [length_hset]
    exact length_holeDownF _ _ _ _
  · rw [if_neg hfix]
    exact length_holeDownF _ _ _ _

theorem length_adjustHeap (l : List Task) (value : Task) :
    (adjustHeap l value).length = l.length := by
  unfold adjustHeap siftUp
  rw [length_siftUpF, length_hset, length_fixupPos]

theorem length_pushQ (q : List Task) (t : Task) :
    (pushQ q t).length = q.length + 1 := by
  unfold pushQ siftUp
  rw [length_siftUpF]
  simp

theorem length_popQ (q : List Task) (t : Task) (rest : List Task)
    (h : popQ q = some (t, rest)) : rest.length = q.length - 1 := by
  match q, h with
  | [x], h =>
    simp only [popQ, Option.some.injEq, Prod.mk.injEq] at h
    simp [← h.2]
  | a :: b :: q, h =>
    simp only [popQ, Option.some.injEq, Prod.mk.injEq] at h
    rw [← h.2, length_adjustHeap, List.length_take]
    simp

/-! ### Multiset bookkeeping: the heap operations permute the stored tasks -/

theorem ms_hset : ∀ (l : List Task) (i : Nat) (v : Task), i < l.length →
    hget l i ::ₘ (↑(hset l i v) : Multiset Task) = v ::ₘ (↑l : Multiset Task)
  | [], i, v, h => by simp at h
  | a :: l, 0, v, _ => by
    show a ::ₘ (↑(v :: l) : Multiset Task) = v ::ₘ ↑(a :: l)
    simp only [← Multiset.cons_coe]
    exact Multiset.cons_swap a v ↑l
  | a :: l, i + 1, v, h => by
    have ih := ms_hset l i v (by simpa using h)
    show hget l i ::ₘ (↑(a :: hset l i v) : Multiset Task) = v ::ₘ ↑(a :: l)
    simp only [← Multiset.cons_coe]
    calc hget l i ::ₘ a ::ₘ (↑(hset l i v) : Multiset Task)
        = a ::ₘ hget l i ::ₘ ↑(hset l i v) := Multiset.cons_swap _ _ _
      _ = a ::ₘ v ::ₘ ↑l := by rw [ih]
      _ = v ::ₘ a ::ₘ ↑l := Multiset.cons_swap _ _ _

theorem hget_hset_self (l : List Task) (i j : Nat) :
    hget (hset l i (hget l i)) j = hget l j := by
  rcases eq_or_ne j i with rfl | hne
  · by_cases h : j < l.length
    · exact hget_hset_eq l j _ h
    · have hl : ∀ (m : List Task) (k : Nat), m.length ≤ k → hget m k = dTask := by
        intro m
        induction m with
        | nil => intro k _; cases k <;> rfl
        | cons a m ih => intro k hk; cases k with
          | zero => simp at hk
          | succ k => exact ih k (by simpa using hk)
      rw [hl _ _ (by simp; omega), hl _ _ (by omega)]
  · exact hget_hset_ne l i j _ hne

theorem ms_hswap (l : List Task) (i j : Nat) (hi : i < l.length)
    (hj : j < l.length) : (↑(hswap l i j) : Multiset Task) = ↑l := by
  unfold hswap
  have h1 := ms_hset l i (hget l j) hi
  have h2 := ms_hset (hset l i (hget l j)) j (hget l i) (by simpa using hj)
  have hm : hget (hset l i (hget l j)) j = hget l j := by
    rcases eq_or_ne j i with rfl | hne
    · exact hget_hset_eq l j _ hj
    · exact hget_hset_ne l i j _ hne
  rw [hm] at h2
  exact (Multiset.cons_inj_right _).mp (h2.trans h1)

theorem ms_siftUpF : ∀ fuel l hole, hole < l.length →
    (↑(siftUpF fuel l hole) : Multiset Task) = ↑l
  | 0, _, _, _ => rfl
  | fuel + 1, l, hole, hlen => by
    by_cases h0 : hole = 0
    · simp [siftUpF, h0]
    · by_cases hlt : ltPT (hget l ((hole - 1) / 2)) (hget l hole)
      · rw [siftUpF, if_neg h0, if_pos hlt,
          ms_siftUpF fuel _ _ (by rw [length_hswap]; omega),
          ms_hswap _ _ _ (by omega) hlen]
      · rw [siftUpF, if_neg h0, if_neg hlt]

theorem ms_holeDownF : ∀ fuel l hole len, hole < len → len = l.length →
    hget l hole ::ₘ (↑(holeDownF fuel l hole len).1 : Multiset Task) =
      hget (holeDownF fuel l hole len).1 (holeDownF fuel l hole len).2 ::ₘ
        (↑l : Multiset Task)
  | 0, l, hole, len, _, _ => rfl
  | fuel + 1, l, hole, len, hh, hlen => by
    by_cases hc : hole < (len - 1) / 2
    · rw [holeDownF, if_pos hc]
      have hsc1 : 2 * hole + 1 ≤ sdChild l hole := by
        unfold sdChild; split <;> omega
      have hsc2 : sdChild l hole < len := by
        unfold sdChild; split <;> omega
      have ih := ms_holeDownF fuel (hset l hole (hget l (sdChild l hole)))
        (sdChild l hole) len hsc2 (by rw [length_hset]; exact hlen)
      rw [hget_hset_ne _ _ _ _ (by omega)] at ih
      have hms := ms_hset l hole (hget l (sdChild l hole)) (by omega)
      set out := holeDownF fuel (hset l hole (hget l (sdChild l hole)))
        (sdChild l hole) len with hout
      have hgoal : hget l (sdChild l hole) ::ₘ
          (hget l hole ::ₘ (↑out.1 : Multiset Task)) =
          hget l (sdChild l hole) ::ₘ (hget out.1 out.2 ::ₘ ↑l) := by
        calc hget l (sdChild l hole) ::ₘ
            (hget l hole ::ₘ (↑out.1 : Multiset Task))
            = hget l hole ::ₘ (hget l (sdChild l hole) ::ₘ ↑out.1) :=
              Multiset.cons_swap _ _ _
          _ = hget l hole ::ₘ (hget out.1 out.2 ::ₘ
                ↑(hset l hole (hget l (sdChild l hole)))) := by rw [ih]
          _ = hget out.1 out.2 ::ₘ (hget l hole ::ₘ
                ↑(hset l hole (hget l (sdChild l hole)))) :=
              Multiset.cons_swap _ _ _
          _ = hget out.1 out.2 ::ₘ (hget l (sdChild l hole) ::ₘ ↑l) := by
              rw [hms]
          _ = hget l (sdChild l hole) ::ₘ (hget out.1 out.2 ::ₘ ↑l) :=
              Multiset.cons_swap _ _ _
      exact (Multiset.cons_inj_right _).mp hgoal
    · rw [holeDownF, if_neg hc]

/-- `sdChild` picks a maximal child: the entry at the unchosen sibling does
not compare greater. -/
theorem sdChild_max (l : List Task) (hole c : Nat) (hc : (c - 1) / 2 = hole)
    (hc0 : 0 < c) (hne : c ≠ sdChild l hole) :
    ¬ ltPT (hget l (sdChild l hole)) (hget l c) := by
  have hcc : c = 2 * hole + 1 ∨ c = 2 * hole + 2 := by omega
  have e1 : 2 * (hole + 1) - 1 = 2 * hole + 1 := by omega
  have e2 : 2 * (hole + 1) = 2 * hole + 2 := by omega
  unfold sdChild at hne ⊢
  rw [e1, e2] at hne ⊢
  by_cases hlt : ltPT (hget l (2 * hole + 2)) (hget l (2 * hole + 1))
  · rw [if_pos hlt] at hne ⊢
    have hc2 : c = 2 * hole + 2 := by omega
    subst hc2
    simp only [ltPT] at hlt ⊢
    omega
  · rw [if_neg hlt] at hne ⊢
    have hc1 : c = 2 * hole + 1 := by omega
    subst hc1
    exact hlt

/-- Phase one preserves the heap pairs away from the hole, keeps the entry at
the hole equal to its parent's entry, and stops only once the hole has at most
one child. -/
theorem holeDownF_spec : ∀ fuel l hole len, len = l.length → hole < len →
    len ≤ fuel + hole → heapExceptAt l hole →
    (0 < hole → hget l ((hole - 1) / 2) = hget l hole) →
    (holeDownF fuel l hole len).2 < len ∧
    ¬ ((holeDownF fuel l hole len).2 < (len - 1) / 2) ∧
    heapExceptAt (holeDownF fuel l hole len).1 (holeDownF fuel l hole len).2 ∧
    (0 < (holeDownF fuel l hole len).2 →
      hget (holeDownF fuel l hole len).1
        (((holeDownF fuel l hole len).2 - 1) / 2) =
      hget (holeDownF fuel l hole len).1 (holeDownF fuel l hole len).2)
  | 0, l, hole, len, hlen, hh, hfuel, _, _ => by omega
  | fuel + 1, l, hole, len, hlen, hh, hfuel, hA, hEq => by
    by_cases hc : hole < (len - 1) / 2
    · rw [holeDownF, if_pos hc]
      have hsc1 : 2 * hole + 1 ≤ sdChild l hole ∧ sdChild l hole ≤ 2 * hole + 2 := by
        unfold sdChild; split <;> omega
      have hsc2 : sdChild l hole < len := by omega
      have hscp : (sdChild l hole - 1) / 2 = hole := by omega
      apply holeDownF_spec fuel _ _ len (by rw [length_hset]; exact hlen) hsc2
        (by omega)
      · -- heapExceptAt after moving the chosen child into the hole
        intro j hj hj0 hjsc
        rw [length_hset, ← hlen] at hj
        by_cases hjh : j = hole
        · subst hjh
          have hj2 : (j - 1) / 2 ≠ j := by omega
          rw [hget_hset_ne _ _ _ _ hj2, hget_hset_eq _ _ _ (by omega)]
          have h1 := hA (sdChild l j) (by omega) (by omega) (by omega)
          rw [hscp] at h1
          rw [← hEq hj0] at h1
          exact h1
        · by_cases hpar : (j - 1) / 2 = hole
          · have hjgt : 2 * hole + 1 ≤ j := by omega
            rw [hpar, hget_hset_eq _ _ _ (by omega),
              hget_hset_ne _ _ _ _ hjh]
            exact sdChild_max l hole j hpar hj0 hjsc
          · rw [hget_hset_ne _ _ _ _ hpar, hget_hset_ne _ _ _ _ hjh]
            exact hA j (by omega) hj0 hjh
      · -- the moved entry matches the new hole's entry
        intro _
        rw [hscp, hget_hset_eq _ _ _ (by omega),
          hget_hset_ne _ _ _ _ (by omega)]
    · rw [holeDownF, if_neg hc]
      exact ⟨hh, hc, hA, hEq⟩

/-- After the fix-up, the hole is a leaf and the heap pairs away from the hole
all hold. -/
theorem fixupPos_spec (l : List Task) (hne : 1 ≤ l.length)
    (hA : heapExceptAt l 0) :
    (fixupPos l l.length).2 < l.length ∧
    l.length ≤ 2 * (fixupPos l l.length).2 + 1 ∧
    (fixupPos l l.length).1.length = l.length ∧
    heapExceptAt (fixupPos l l.length).1 (fixupPos l l.length).2 := by
  obtain ⟨hh1, hh2, hh3, hh4⟩ := holeDownF_spec l.length l 0 l.length rfl
    (by omega) (by omega) hA (by omega)
  have hlen1 : (holeDownF l.length l 0 l.length).1.length = l.length :=
    length_holeDownF _ _ _ _
  unfold fixupPos
  by_cases hfix : l.length % 2 = 0 ∧
      (holeDownF l.length l 0 l.length).2 = (l.length - 2) / 2
  · rw [if_pos hfix]
    set p1 := holeDownF l.length l 0 l.length with hp1
    have hlen2 : 2 ≤ l.length := by omega
    have hh2' : 2 * (p1.2 + 1) - 1 = l.length - 1 := by omega
    rw [hh2']
    refine ⟨by omega, by omega, by simp [hlen1], ?_⟩
    intro j hj hj0 hjne
    rw [length_hset, hlen1] at hj
    by_cases hjp : j = p1.2
    · rw [hjp]
      have hjpos : 0 < p1.2 := by omega
      have hple : (p1.2 - 1) / 2 ≠ p1.2 := by omega
      rw [hget_hset_ne _ _ _ _ hple, hget_hset_eq _ _ _ (by omega)]
      have h1 := hh3 (l.length - 1) (by omega) (by omega) (by omega)
      have hpar1 : (l.length - 1 - 1) / 2 = p1.2 := by omega
      rw [hpar1] at h1
      rw [hh4 hjpos]
      exact h1
    · by_cases hpar : (j - 1) / 2 = p1.2
      · have hj12 : j = 2 * p1.2 + 1 ∨ j = 2 * p1.2 + 2 := by omega
        omega
      · rw [hget_hset_ne _ _ _ _ hpar, hget_hset_ne _ _ _ _ hjp]
        exact hh3 j (by omega) hj0 hjp
  · rw [if_neg hfix]
    exact ⟨hh1, by omega, hlen1, hh3⟩

/-- `__adjust_heap(first, 0, len, value)` restores the heap invariant, given
an array whose pairs away from the (stale) root all hold. -/
theorem adjustHeap_isHeap (l : List Task) (value : Task) (hne : 1 ≤ l.length)
    (hA : heapExceptAt l 0) : isHeap (adjustHeap l value) := by
  obtain ⟨hf1, hf2, hf3, hf4⟩ := fixupPos_spec l hne hA
  unfold adjustHeap
  apply siftUp_isHeap _ _ (by rw [length_hset]; omega)
  · intro j hj hj0 hjne
    rw [length_hset, hf3] at hj
    have hparne : (j - 1) / 2 ≠ (fixupPos l l.length).2 := by omega
    rw [hget_hset_ne _ _ _ _ hparne, hget_hset_ne _ _ _ _ hjne]
    exact hf4 j (by omega) hj0 hjne
  · intro c hc hc0 hcp _
    rw [length_hset, hf3] at hc
    omega

/-- `priority_queue::push` preserves the heap invariant. -/
theorem pushQ_isHeap (q : List Task) (t : Task) (hq : isHeap q) :
    isHeap (pushQ q t) := by
  unfold pushQ siftUp
  apply siftUpF_isHeap q.length _ q.length le_rfl (by simp)
  · intro j hj hj0 hjne
    rw [List.length_append, List.length_singleton] at hj
    have hjq : j < q.length := by omega
    rw [hget_append_lt _ _ _ hjq, hget_append_lt _ _ _ (by omega)]
    exact hq j hjq hj0
  · intro c hc hc0 hcp _
    rw [List.length_append, List.length_singleton] at hc
    omega

/-- In a heap, no entry has a priority above the root's. -/
theorem root_le (l : List Task) (hq : isHeap l) :
    ∀ j, j < l.length → (hget l j).priority.toNat ≤ (hget l 0).priority.toNat
  | j, hj => by
    induction j using Nat.strong_induction_on with
    | _ j ih =>
      rcases Nat.eq_zero_or_pos j with rfl | hj0
      · exact le_rfl
      · have hpair := hq j hj hj0
        have hplt : (j - 1) / 2 < j := by omega
        have hp := ih ((j - 1) / 2) hplt (by omega)
        simp only [ltPT] at hpair
        omega

/-- `top`/`pop` return the root, the remaining array is a heap again, and the
popped element together with the remainder carries exactly the stored
multiset. -/
theorem popQ_isHeap (q : List Task) (t : Task) (rest : List Task)
    (hq : isHeap q) (h : popQ q = some (t, rest)) :
    t = hget q 0 ∧ isHeap rest := by
  match q, h with
  | [x], h =>
    simp only [popQ, Option.some.injEq, Prod.mk.injEq] at h
    refine ⟨h.1.symm, ?_⟩
    rw [← h.2]
    intro j hj _
    simp at hj
  | a :: b :: q', h =>
    simp only [popQ, Option.some.injEq, Prod.mk.injEq] at h
    refine ⟨h.1.symm, ?_⟩
    rw [← h.2]
    apply adjustHeap_isHeap
    · rw [List.length_take]
      simp
    · intro j hj hj0 _
      rw [List.length_take] at hj
      have hjlen : j < (a :: b :: q').length - 1 := by
        simpa using hj
      rw [hget_take _ _ _ hjlen, hget_take _ _ _ (by omega)]
      exact hq j (by simp at hjlen ⊢; omega) hj0

/-- `hget` agrees with `List.get` in range. -/
theorem hget_eq_get : ∀ (l : List Task) (i : Nat) (h : i < l.length),
    hget l i = l.get ⟨i, h⟩
  | a :: _, 0, _ => rfl
  | a :: l, i + 1, h => hget_eq_get l i (by simpa using h)

/-- Every member of the array is an `hget` at some index. -/
theorem mem_iff_hget (l : List Task) (x : Task) :
    x ∈ l ↔ ∃ i, i < l.length ∧ hget l i = x := by
  constructor
  · intro hx
    obtain ⟨⟨i, hi⟩, heq⟩ := List.mem_iff_get.mp hx
    exact ⟨i, hi, by rw [hget_eq_get l i hi, heq]⟩
  · rintro ⟨i, hi, rfl⟩
    rw [hget_eq_get l i hi]
    exact List.get_mem l _ _

/-- A nonempty array is its last entry plus the prefix before it. -/
theorem ms_dropLast : ∀ (l : List Task), 1 ≤ l.length →
    (↑l : Multiset Task) = hget l (l.length - 1) ::ₘ ↑(l.take (l.length - 1))
  | [a], _ => rfl
  | a :: b :: m, _ => by
    have ih := ms_dropLast (b :: m) (by simp)
    have hlen : (a :: b :: m).length - 1 = (b :: m).length - 1 + 1 := by simp
    rw [hlen]
    show (↑(a :: b :: m) : Multiset Task) =
      hget (b :: m) ((b :: m).length - 1) ::ₘ
        ↑(a :: (b :: m).take ((b :: m).length - 1))
    calc (↑(a :: b :: m) : Multiset Task)
        = a ::ₘ ↑(b :: m) := (Multiset.cons_coe _ _).symm
      _ = a ::ₘ (hget (b :: m) ((b :: m).length - 1) ::ₘ
            ↑((b :: m).take ((b :: m).length - 1))) := by rw [ih]
      _ = hget (b :: m) ((b :: m).length - 1) ::ₘ
            (a ::ₘ ↑((b :: m).take ((b :: m).length - 1))) :=
          Multiset.cons_swap _ _ _
      _ = hget (b :: m) ((b :: m).length - 1) ::ₘ
            ↑(a :: (b :: m).take ((b :: m).length - 1)) := by
          rw [Multiset.cons_coe]

theorem ms_fixupPos (l : List Task) (hne : 1 ≤ l.length)
    (hA : heapExceptAt l 0) :
    hget l 0 ::ₘ (↑(fixupPos l l.length).1 : Multiset Task) =
      hget (fixupPos l l.length).1 (fixupPos l l.length).2 ::ₘ
        (↑l : Multiset Task) := by
  have hms := ms_holeDownF l.length l 0 l.length (by omega) rfl
  obtain ⟨hh1, hh2, hh3, hh4⟩ := holeDownF_spec l.length l 0 l.length rfl
    (by omega) (by omega) hA (by omega)
  have hlen1 : (holeDownF l.length l 0 l.length).1.length = l.length :=
    length_holeDownF _ _ _ _
  unfold fixupPos
  by_cases hfix : l.length % 2 = 0 ∧
      (holeDownF l.length l 0 l.length).2 = (l.length - 2) / 2
  · rw [if_pos hfix]
    set p1 := holeDownF l.length l 0 l.length with hp1
    have hlen2 : 2 ≤ l.length := by omega
    have hh2' : 2 * (p1.2 + 1) - 1 = l.length - 1 := by omega
    rw [hh2']
    have hmid := ms_hset p1.1 p1.2 (hget p1.1 (l.length - 1)) (by omega)
    have hgetne : hget (hset p1.1 p1.2 (hget p1.1 (l.length - 1)))
        (l.length - 1) = hget p1.1 (l.length - 1) :=
      hget_hset_ne _ _ _ _ (by omega)
    rw [hgetne]
    have key : hget p1.1 p1.2 ::ₘ
        (hget l 0 ::ₘ (↑(hset p1.1 p1.2 (hget p1.1 (l.length - 1))) :
          Multiset Task)) =
        hget p1.1 p1.2 ::ₘ (hget p1.1 (l.length - 1) ::ₘ ↑l) := by
      calc hget p1.1 p1.2 ::ₘ (hget l 0 ::ₘ
          (↑(hset p1.1 p1.2 (hget p1.1 (l.length - 1))) : Multiset Task))
          = hget l 0 ::ₘ (hget p1.1 p1.2 ::ₘ
              ↑(hset p1.1 p1.2 (hget p1.1 (l.length - 1)))) :=
            Multiset.cons_swap _ _ _
        _ = hget l 0 ::ₘ (hget p1.1 (l.length - 1) ::ₘ ↑p1.1) := by rw [hmid]
        _ = hget p1.1 (l.length - 1) ::ₘ (hget l 0 ::ₘ ↑p1.1) :=
            Multiset.cons_swap _ _ _
        _ = hget p1.1 (l.length - 1) ::ₘ (hget p1.1 p1.2 ::ₘ ↑l) := by
            rw [hms]
        _ = hget p1.1 p1.2 ::ₘ (hget p1.1 (l.length - 1) ::ₘ ↑l) :=
            Multiset.cons_swap _ _ _
    exact (Multiset.cons_inj_right _).mp key
  · rw [if_neg hfix]
    exact hms

/-- `popQ` returns some element (the root) and the rest: together they form
exactly the multiset that was stored. -/
theorem popQ_perm (q : List Task) (t : Task) (rest : List Task)
    (hA : heapExceptAt q 0) (h : popQ q = some (t, rest)) :
    t ::ₘ (↑rest : Multiset Task) = (↑q : Multiset Task) := by
  match q, h with
  | [x], h =>
    simp only [popQ, Option.some.injEq, Prod.mk.injEq] at h
    rw [← h.1, ← h.2]
    rfl
  | a :: b :: q', h =>
    simp only [popQ, Option.some.injEq, Prod.mk.injEq] at h
    set n := (a :: b :: q').length with hn
    have hn2 : 2 ≤ n := by simp [hn]
    have hbody : heapExceptAt ((a :: b :: q').take (n - 1)) 0 := by
      intro j hj hj0 hjne
      rw [List.length_take] at hj
      have hjlen : j < n - 1 := by omega
      rw [hget_take _ _ _ hjlen, hget_take _ _ _ (by omega)]
      exact hA j (by omega) hj0 hjne
    have hblen : ((a :: b :: q').take (n - 1)).length = n - 1 := by
      rw [List.length_take]; omega
    have hmsA := ms_fixupPos ((a :: b :: q').take (n - 1)) (by omega) hbody
    -- the final sift-up also preserves the multiset
    obtain ⟨hf1, hf2, hf3, hf4⟩ := fixupPos_spec ((a :: b :: q').take (n - 1))
      (by omega) hbody
    have hrestms : (↑rest : Multiset Task) =
        ↑(hset (fixupPos ((a :: b :: q').take (n - 1))
            ((a :: b :: q').take (n - 1)).length).1
          (fixupPos ((a :: b :: q').take (n - 1))
            ((a :: b :: q').take (n - 1)).length).2
          (hget (a :: b :: q') (n - 1))) := by
      rw [← h.2]
      unfold adjustHeap siftUp
      exact ms_siftUpF _ _ _ (by rw [length_hset]; omega)
    have hmsB := ms_hset (fixupPos ((a :: b :: q').take (n - 1))
        ((a :: b :: q').take (n - 1)).length).1
      (fixupPos ((a :: b :: q').take (n - 1))
        ((a :: b :: q').take (n - 1)).length).2
      (hget (a :: b :: q') (n - 1)) (by rw [hf3]; omega)
    -- the full array splits off its last entry
    have hsplit : (↑(a :: b :: q') : Multiset Task) =
        hget (a :: b :: q') (n - 1) ::ₘ ↑((a :: b :: q').take (n - 1)) :=
      ms_dropLast (a :: b :: q') (by omega)
    -- assemble everything by cancelling auxiliary cons entries
    have hq0 : hget ((a :: b :: q').take (n - 1)) 0 = hget (a :: b :: q') 0 :=
      hget_take _ _ _ (by omega)
    set fixp := fixupPos ((a :: b :: q').take (n - 1))
      ((a :: b :: q').take (n - 1)).length with hfixp
    set value := hget (a :: b :: q') (n - 1) with hvalue
    have key : hget fixp.1 fixp.2 ::ₘ (t ::ₘ (↑rest : Multiset Task)) =
        hget fixp.1 fixp.2 ::ₘ ↑(a :: b :: q') := by
      calc hget fixp.1 fixp.2 ::ₘ (t ::ₘ (↑rest : Multiset Task))
          = t ::ₘ (hget fixp.1 fixp.2 ::ₘ ↑rest) := Multiset.cons_swap _ _ _
        _ = t ::ₘ (hget fixp.1 fixp.2 ::ₘ
              ↑(hset fixp.1 fixp.2 value)) := by rw [hrestms]
        _ = t ::ₘ (value ::ₘ ↑fixp.1) := by rw [hmsB]
        _ = value ::ₘ (t ::ₘ ↑fixp.1) := Multiset.cons_swap _ _ _
        _ = value ::ₘ (hget ((a :: b :: q').take (n - 1)) 0 ::ₘ ↑fixp.1) := by
            rw [hq0, h.1]
        _ = value ::ₘ (hget fixp.1 fixp.2 ::ₘ
              ↑((a :: b :: q').take (n - 1))) := by rw [hmsA]
        _ = hget fixp.1 fixp.2 ::ₘ (value ::ₘ
              ↑((a :: b :: q').take (n - 1))) := Multiset.cons_swap _ _ _
        _ = hget fixp.1 fixp.2 ::ₘ ↑(a :: b :: q') := by rw [← hsplit]
    exact (Multiset.cons_inj_right _).mp key

theorem isHeap_heapExceptAt (l : List Task) (h : isHeap l) (hole : Nat) :
    heapExceptAt l hole := fun j hj hj0 _ => h j hj hj0

theorem popQ_none (q : List Task) : popQ q = none ↔ q = [] := by
  match q with
  | [] => simp [popQ]
  | [x] => simp [popQ]
  | a :: b :: q' => simp [popQ]

/-- Draining a heap pops every stored task (same multiset) in non-increasing
priority order. -/
theorem popAllF_spec : ∀ fuel q, q.length ≤ fuel → isHeap q →
    (↑(popAllF fuel q) : Multiset Task) = ↑q ∧
    List.Pairwise (fun a b => b.priority.toNat ≤ a.priority.toNat)
      (popAllF fuel q)
  | 0, q, hfuel, _ => by
    have hq : q = [] := List.length_eq_zero.mp (by omega)
    subst hq
    exact ⟨rfl, List.Pairwise.nil⟩
  | fuel + 1, q, hfuel, hq => by
    rcases hpop : popQ q with _ | ⟨t, rest⟩
    · have hq0 : q = [] := (popQ_none q).mp hpop
      subst hq0
      rw [popAllF, hpop]
      exact ⟨rfl, List.Pairwise.nil⟩
    · have hqne : q ≠ [] := by
        intro hq0; subst hq0; simp [popQ] at hpop
      have hlen : rest.length = q.length - 1 := length_popQ q t rest hpop
      have hql : 1 ≤ q.length := by
        cases q with
        | nil => exact absurd rfl hqne
        | cons a q' => simp
      obtain ⟨ht, hrest⟩ := popQ_isHeap q t rest hq hpop
      have hperm := popQ_perm q t rest (isHeap_heapExceptAt q hq 0) hpop
      obtain ⟨ihp, ihs⟩ := popAllF_spec fuel rest (by omega) hrest
      rw [popAllF, hpop]
      constructor
      · calc (↑(t :: popAllF fuel rest) : Multiset Task)
            = t ::ₘ ↑(popAllF fuel rest) := (Multiset.cons_coe _ _).symm
          _ = t ::ₘ ↑rest := by rw [ihp]
          _ = ↑q := hperm
      · refine List.Pairwise.cons ?_ ihs
        intro x hx
        have hxrest : x ∈ rest := by
          have : x ∈ (↑(popAllF fuel rest) : Multiset Task) := by
            exact_mod_cast hx
          rw [ihp] at this
          exact_mod_cast this
        have hxq : x ∈ q := by
          have : x ∈ (↑q : Multiset Task) := by
            rw [← hperm]
            exact Multiset.mem_cons_of_mem (by exact_mod_cast hxrest)
          exact_mod_cast this
        obtain ⟨i, hi, hix⟩ := (mem_iff_hget q x).mp hxq
        rw [← hix, ht]
        exact root_le q hq i hi

theorem popAll_perm (q : List Task) (hq : isHeap q) :
    (↑(popAll q) : Multiset Task) = ↑q :=
  (popAllF_spec q.length q le_rfl hq).1

theorem popAll_sorted (q : List Task) (hq : isHeap q) :
    List.Pairwise (fun a b => b.priority.toNat ≤ a.priority.toNat)
      (popAll q) :=
  (popAllF_spec q.length q le_rfl hq).2

/-! ## Pool state and operations

Embedding of the `ThreadPool` class state: the `std::priority_queue`'s
underlying array, the `stop_` flag, `enable_stats_`, the `std::atomic`
counters, and observables of the model (the result-delivery shared states
keyed by arrival number, the number of dequeued-but-unfinished tasks, and the
cumulative count of `worker.join()` events).  Each lock-protected critical
section of the C++ code is one atomic transition. -/

inductive PoolError
  | poolStopped
  | invalidConfiguration
deriving DecidableEq, Repr

/-- State of one task's `std::future` shared state, as the caller observes
it.  `cancelled` is the outcome the specification requires for tasks
discarded by forced shutdown. -/
inductive SinkState
  | unresolved
  | value
  | failure
  | cancelled
deriving DecidableEq, Repr

structure PoolSt where
  tasksA : List Task
  stop : Bool
  enableStats : Bool
  totalTasks : Nat
  completedTasks : Nat
  failedTasks : Nat
  totalExecTime : Nat
  numWorkers : Nat
  joinedCount : Nat
  inFlight : Nat
  sinks : List (Nat × SinkState)
deriving DecidableEq, Repr

/-- Resolve the shared state of the task with arrival key `k`. -/
def setSink (sinks : List (Nat × SinkState)) (k : Nat) (v : SinkState) :
    List (Nat × SinkState) :=
  sinks.map fun p => if p.1 = k then (k, v) else p

/-- `ThreadPool::ThreadPool(num_threads, enable_stats)`: throws
`std::invalid_argument` when `num_threads == 0`, otherwise starts
`num_threads` workers with all counters zero and `stop_ = false`. -/
def mkThreadPool (num_threads : Nat) (enable_stats : Bool) :
    Except PoolError PoolSt :=
  if num_threads = 0 then .error .invalidConfiguration
  else .ok { tasksA := [], stop := false, enableStats := enable_stats,
             totalTasks := 0, completedTasks := 0, failedTasks := 0,
             totalExecTime := 0, numWorkers := num_threads, joinedCount := 0,
             inFlight := 0, sinks := [] }

/-- The critical section of `submit` when `stop_` is false: construct the
`PriorityTask` envelope, `tasks_.emplace` it, and `total_tasks_++` when stats
are enabled.  The model also registers the task's (still unresolved) result
shared state. -/
def submitCore (s : PoolSt) (t : Task) : PoolSt :=
  { s with tasksA := pushQ s.tasksA t,
           totalTasks := if s.enableStats then s.totalTasks + 1
             else s.totalTasks,
           sinks := (t.arrival, SinkState.unresolved) :: s.sinks }

/-- `submit`: under the lock, throw (`PoolStopped`) when `stop_` is set —
leaving the pool state untouched, the envelope neither constructed nor
enqueued — otherwise enqueue and count. -/
def submit (s : PoolSt) (t : Task) : PoolSt × Option PoolError :=
  if s.stop then (s, some .poolStopped) else (submitCore s t, none)

/-- Invoking the queued closure `[this,task]{ execute_task([task]{ (*task)(); }); }`:
`std::packaged_task::operator()` runs the payload and, when the payload
throws, *stores* that exception in the shared state ([futures.task.members])
— `operator()` returns normally rather than rethrowing.  Result: what the
task's future receives, and whether an exception escaped into the caller
(`execute_task`'s try block), which for a payload exception never happens. -/
def runEnvelope (t : Task) : SinkState × Bool :=
  ((if t.throws then SinkState.failure else SinkState.value), false)

/-- `execute_task`: run the thunk under try/catch — `completed_tasks_++` if
nothing escapes, `failed_tasks_++` if something does (stats-guarded) — then
fold the measured duration into `total_execution_time_` (stats-guarded).
The model additionally retires the task from the in-flight set. -/
def execute_task (s : PoolSt) (t : Task) : PoolSt :=
  match runEnvelope t with
  | (res, escaped) =>
    let s1 := { s with sinks := setSink s.sinks t.arrival res }
    let s2 := if escaped then
        { s1 with failedTasks := if s1.enableStats then s1.failedTasks + 1
            else s1.failedTasks }
      else
        { s1 with completedTasks := if s1.enableStats then
            s1.completedTasks + 1 else s1.completedTasks }
    let s3 := if s2.enableStats then
        { s2 with totalExecTime := s2.totalExecTime + t.execTime }
      else s2
    { s3 with inFlight := s3.inFlight - 1 }

/-- One wake of `worker_thread` while holding the lock. -/
inductive WorkerAct
  | terminate
  | run (t : Task) (s' : PoolSt)
  | keepWaiting
deriving DecidableEq, Repr

/-- `worker_thread`, one iteration: the condition variable predicate is
`stop_ || !tasks_.empty()`; once it holds, `return` iff
`stop_ && tasks_.empty()`, otherwise take `tasks_.top()`, `tasks_.pop()`,
release the lock and run the envelope (the dequeued task becomes
in-flight). -/
def worker_thread_step (s : PoolSt) : WorkerAct :=
  if s.stop = true ∨ s.tasksA ≠ [] then
    if s.stop = true ∧ s.tasksA = [] then .terminate
    else
      match popQ s.tasksA with
      | some (t, rest) =>
        .run t { s with tasksA := rest, inFlight := s.inFlight + 1 }
      | none => .terminate
  else .keepWaiting

/-- The worker loop once `stop_` is set: keep dequeuing until the queue is
empty, then terminate.  Returns the tasks executed, in execution order, and
whether the loop returned. -/
def drainLoopF : Nat → List Task → List Task × Bool
  | 0, _ => ([], false)
  | fuel + 1, q =>
    if q = [] then ([], true)
    else
      match popQ q with
      | none => ([], true)
      | some (t, rest) =>
        (t :: (drainLoopF fuel rest).1, (drainLoopF fuel rest).2)

def drainLoop (q : List Task) : List Task × Bool := drainLoopF (q.length + 1) q

/-- `shutdown`: under the lock, return if `stop_` already set, else set it;
then `notify_all` and join every worker. -/
def shutdown (s : PoolSt) : PoolSt :=
  if s.stop then s
  else { s with stop := true, joinedCount := s.joinedCount + s.numWorkers }

/-- `shutdown_now`: under the lock, return if `stop_` already set, else pop
every queued envelope (their result shared states are not touched) and set
`stop_`; then `notify_all` and join every worker.  In-flight tasks are not
interrupted. -/
def shutdown_now (s : PoolSt) : PoolSt :=
  if s.stop then s
  else { s with tasksA := [], stop := true,
                joinedCount := s.joinedCount + s.numWorkers }

/-! Query surface. -/

def thread_count (s : PoolSt) : Nat := s.numWorkers

def pending_tasks (s : PoolSt) : Nat := s.tasksA.length

def total_tasks (s : PoolSt) : Nat := s.totalTasks

def completed_tasks (s : PoolSt) : Nat := s.completedTasks

def failed_tasks (s : PoolSt) : Nat := s.failedTasks

def is_stopped (s : PoolSt) : Bool := s.stop

/-- `average_execution_time`: `0.0` when stats are disabled or nothing
completed, else `total_execution_time_ / completed_tasks_` (the C++ `double`
quotient is modelled exactly, in `ℚ`). -/
def average_execution_time (s : PoolSt) : ℚ :=
  if s.enableStats = false ∨ s.completedTasks = 0 then 0
  else (s.totalExecTime : ℚ) / (s.completedTasks : ℚ)

/-- The number of dequeued-but-unfinished tasks, an observable of the model
(the C++ object does not store it). -/
def in_flight_count (s : PoolSt) : Nat := s.inFlight

/-- The accounting identity of the specification. -/
def accounting (s : PoolSt) : Prop :=
  total_tasks s =
    completed_tasks s + failed_tasks s + pending_tasks s + in_flight_count s

instance (s : PoolSt) : Decidable (accounting s) := by
  unfold accounting; infer_instance

/-- The observable transitions of a pool: a successful submission, a worker
dequeuing, a worker finishing a dequeued task, and the two shutdown modes. -/
inductive Step : PoolSt → PoolSt → Prop
  | submitted (s : PoolSt) (t : Task) (h : s.stop = false) :
      Step s (submitCore s t)
  | dequeued (s : PoolSt) (t : Task) (rest : List Task)
      (h : popQ s.tasksA = some (t, rest)) :
      Step s { s with tasksA := rest, inFlight := s.inFlight + 1 }
  | finished (s : PoolSt) (t : Task) (h : 0 < s.inFlight) :
      Step s (execute_task s t)
  | graceful (s : PoolSt) : Step s (shutdown s)
  | forced (s : PoolSt) : Step s (shutdown_now s)

/-- The same transitions without forced shutdown. -/
inductive StepNF : PoolSt → PoolSt → Prop
  | submitted (s : PoolSt) (t : Task) (h : s.stop = false) :
      StepNF s (submitCore s t)
  | dequeued (s : PoolSt) (t : Task) (rest : List Task)
      (h : popQ s.tasksA = some (t, rest)) :
      StepNF s { s with tasksA := rest, inFlight := s.inFlight + 1 }
  | finished (s : PoolSt) (t : Task) (h : 0 < s.inFlight) :
      StepNF s (execute_task s t)
  | graceful (s : PoolSt) : StepNF s (shutdown s)

theorem popAllF_nil : ∀ fuel, popAllF fuel [] = []
  | 0 => rfl
  | fuel + 1 => by rw [popAllF]; rfl

theorem popQ_some_of_ne (q : List Task) (h : q ≠ []) :
    ∃ t rest, popQ q = some (t, rest) := by
  match q with
  | [] => exact absurd rfl h
  | [x] => exact ⟨x, [], rfl⟩
  | a :: b :: q' => exact ⟨_, _, rfl⟩

/-- The worker loop under `stop_ = true` executes exactly the drained pop
sequence, then returns. -/
theorem drainLoopF_eq : ∀ fuel q, q.length ≤ fuel →
    drainLoopF (fuel + 1) q = (popAllF fuel q, true)
  | fuel, [], _ => by
    rw [drainLoopF, if_pos rfl, popAllF_nil]
  | 0, a :: q', hf => by simp at hf
  | fuel + 1, a :: q', hf => by
    obtain ⟨t, rest, hpop⟩ := popQ_some_of_ne (a :: q') (by simp)
    have hlen : rest.length = (a :: q').length - 1 :=
      length_popQ _ _ _ hpop
    rw [drainLoopF, if_neg (by simp), hpop]
    dsimp only
    rw [drainLoopF_eq fuel rest (by simp at hlen hf; omega), popAllF, hpop]

theorem drainLoop_eq (q : List Task) : drainLoop q = (popAll q, true) :=
  drainLoopF_eq q.length q le_rfl

/-! ## Concrete fixtures used by the claim theorems -/

/-- The pool produced by `ThreadPool(2, true)`. -/
def freshPool : PoolSt :=
  { tasksA := [], stop := false, enableStats := true, totalTasks := 0,
    completedTasks := 0, failedTasks := 0, totalExecTime := 0,
    numWorkers := 2, joinedCount := 0, inFlight := 0, sinks := [] }

/-- A plain task whose payload returns normally. -/
def tPlain : Task := ⟨Priority.NORMAL, 5, false, 3⟩

/-- A task whose payload throws; measured duration 7 µs. -/
def tThrow : Task := ⟨Priority.NORMAL, 0, true, 7⟩

/-- Pool state in which `tThrow` has just been dequeued by a worker. -/
def c1St : PoolSt :=
  { freshPool with
    sinks := [(0, SinkState.unresolved)]
    inFlight := 1 }

/-- Pool state with one queued (never dequeued) task and one in-flight
task at the moment `shutdown_now` is called. -/
def c3St : PoolSt :=
  { freshPool with
    tasksA := [tPlain]
    sinks := [(5, SinkState.unresolved)]
    inFlight := 1 }

/-- A stopped pool with one task still queued (graceful-shutdown draining). -/
def wSt : PoolSt := { freshPool with stop := true, tasksA := [tPlain] }

/-- Four equal-priority tasks in arrival order 0,1,2,3. -/
def cexT (i : Nat) : Task := ⟨Priority.NORMAL, i, false, 0⟩

/-- The queue after submitting `cexT 0 … cexT 3` in that order. -/
def cexQ : List Task :=
  pushQ (pushQ (pushQ (pushQ [] (cexT 0)) (cexT 1)) (cexT 2)) (cexT 3)

def w2q : List Task := pushQ (pushQ [] ⟨Priority.LOW, 0, false, 0⟩)
  ⟨Priority.HIGH, 1, false, 0⟩

def w2t : Task := ⟨Priority.NORMAL, 2, false, 0⟩

def c8St : PoolSt :=
  { freshPool with
    completedTasks := 2
    totalExecTime := 10 }

def c10St : PoolSt := { freshPool with enableStats := false }

def cex6Task : Task := ⟨Priority.NORMAL, 0, false, 0⟩

/-! ## Claim theorems -/

/-- C1: the claim says a payload that raises an error makes `failed_tasks()`
increase by one and leaves `completed_tasks()` unchanged.  In the code the
queued envelope invokes the payload through `std::packaged_task`, whose
`operator()` stores a payload exception in the future's shared state and
returns normally, so `execute_task`'s catch never runs for a payload error:
the failure IS captured and delivered through the result handle and the
worker does not crash, but `completed_tasks_` increments and `failed_tasks_`
stays put (the duration is still added).  Evaluation of the embedded
`execute_task` at a throwing payload exhibits exactly this. -/
theorem C1_payload_exception_counters :
    tThrow.throws = true ∧
    (execute_task c1St tThrow).sinks = [(0, SinkState.failure)] ∧
    (execute_task c1St tThrow).completedTasks = c1St.completedTasks + 1 ∧
    (execute_task c1St tThrow).failedTasks = c1St.failedTasks ∧
    (execute_task c1St tThrow).totalExecTime = c1St.totalExecTime + 7 ∧
    (execute_task c1St tThrow).inFlight = 0 := by
  decide

/-- C2 (counterexample): the claim's stable tie-break fails on the code.
Four equal-priority tasks submitted in arrival order 0,1,2,3 are dequeued in
order 0,2,1,3 by the `std::priority_queue` max-heap: tasks 1 and 2 have equal
priority, task 1 arrived first, yet task 2 is dequeued first. -/
theorem C2_stability_counterexample :
    (cexT 1).priority = (cexT 2).priority ∧
    (cexT 1).arrival < (cexT 2).arrival ∧
    popAll cexQ = [cexT 0, cexT 2, cexT 1, cexT 3] ∧
    List.indexOf (cexT 2) (popAll cexQ) < List.indexOf (cexT 1) (popAll cexQ)
    := by
  decide

/-- C2 (amended): under the priority-queue discipline, dequeue order is by
priority descending — every pop yields a task of maximal priority among
those queued, push and pop preserve the heap invariant and the stored
multiset, and a full drain is sorted by non-increasing priority — but among
equal priorities the max-heap does not preserve arrival order (see the
counterexample). -/
theorem C2_priority_order_amended (q : List Task) (t : Task)
    (hq : isHeap q) :
    isHeap (pushQ q t) ∧
    (∀ t' rest, popQ q = some (t', rest) → isHeap rest ∧
      t' ::ₘ (↑rest : Multiset Task) = (↑q : Multiset Task) ∧
      ∀ j, j < q.length →
        (hget q j).priority.toNat ≤ t'.priority.toNat) ∧
    List.Pairwise (fun a b => b.priority.toNat ≤ a.priority.toNat)
      (popAll q) := by
  refine ⟨pushQ_isHeap q t hq, ?_, popAll_sorted q hq⟩
  intro t' rest hpop
  obtain ⟨ht, hrest⟩ := popQ_isHeap q t' rest hq hpop
  refine ⟨hrest, popQ_perm q t' rest (isHeap_heapExceptAt q hq 0) hpop, ?_⟩
  intro j hj
  rw [ht]
  exact root_le q hq j hj

/-- Witness for C2 (amended) at a concrete two-task heap. -/
theorem C2_priority_order_amended_witness :
    isHeap w2q ∧ isHeap (pushQ w2q w2t) :=
  ⟨by decide, (C2_priority_order_amended w2q w2t (by decide)).1⟩

/-- C3: the claim (and the spec's required correction) says every envelope
discarded by `shutdown_now` has its result handle resolved to `Cancelled`.
The code's `shutdown_now` pops every queued envelope without touching their
result shared states: evaluating the embedded `shutdown_now` on a pool with
one queued task shows the queue emptied and stop set, while the discarded
task's sink stays `unresolved` — never `cancelled` — and the in-flight task
is unaffected (it is joined, not interrupted). -/
theorem C3_forced_shutdown_eval :
    (shutdown_now c3St).tasksA = [] ∧
    (shutdown_now c3St).stop = true ∧
    (shutdown_now c3St).sinks = [(5, SinkState.unresolved)] ∧
    (shutdown_now c3St).inFlight = c3St.inFlight := by
  decide

/-- C4: submission after stop fails with `PoolStopped`, the envelope is never
enqueued, and the pool state — in particular the queue contents and the
submitted count — is exactly what it was before the call. -/
theorem C4_submit_after_stop (s : PoolSt) (t : Task) (h : s.stop = true) :
    submit s t = (s, some PoolError.poolStopped) ∧
    (submit s t).1.tasksA = s.tasksA ∧
    (submit s t).1.totalTasks = s.totalTasks := by
  simp [submit, h]

/-- Witness for C4 on a concrete stopped pool. -/
theorem C4_submit_after_stop_witness :
    submit { freshPool with stop := true } tPlain =
      ({ freshPool with stop := true }, some PoolError.poolStopped) :=
  (C4_submit_after_stop { freshPool with stop := true } tPlain rfl).1

/-- C5: once the wake predicate `stop_ || !tasks_.empty()` holds, the worker
terminates exactly when `stop_ && tasks_.empty()`; whenever the queue is
non-empty — stop flag or not — it dequeues the head (top) envelope and runs
it; and with stop set the loop drains the whole queue (executing exactly the
stored multiset of tasks) and then returns. -/
theorem C5_worker_loop :
    (∀ s : PoolSt, (s.stop = true ∨ s.tasksA ≠ []) →
      (worker_thread_step s = WorkerAct.terminate ↔
        (s.stop = true ∧ s.tasksA = []))) ∧
    (∀ (s : PoolSt) (t : Task) (rest : List Task),
      popQ s.tasksA = some (t, rest) →
      worker_thread_step s =
        WorkerAct.run t { s with tasksA := rest,
                                 inFlight := s.inFlight + 1 }) ∧
    (∀ s : PoolSt, s.stop = true →
      drainLoop s.tasksA = (popAll s.tasksA, true)) ∧
    (∀ s : PoolSt, s.stop = true → isHeap s.tasksA →
      (↑(drainLoop s.tasksA).1 : Multiset Task) = ↑s.tasksA) := by
  refine ⟨?_, ?_, ?_, ?_⟩
  · intro s hpred
    unfold worker_thread_step
    rw [if_pos hpred]
    by_cases h1 : s.stop = true ∧ s.tasksA = []
    · rw [if_pos h1]
      simp [h1]
    · rw [if_neg h1]
      have hne : s.tasksA ≠ [] := by
        intro h0
        rcases hpred with hs | hq
        · exact h1 ⟨hs, h0⟩
        · exact hq h0
      obtain ⟨t, rest, hpop⟩ := popQ_some_of_ne s.tasksA hne
      rw [hpop]
      simp [h1]
  · intro s t rest hpop
    have hne : s.tasksA ≠ [] := by
      intro h0; rw [h0] at hpop; simp [popQ] at hpop
    unfold worker_thread_step
    rw [if_pos (Or.inr hne), if_neg (fun h1 => hne h1.2), hpop]
  · intro s _
    exact drainLoop_eq s.tasksA
  · intro s _ hq
    rw [drainLoop_eq s.tasksA]
    exact popAll_perm s.tasksA hq

/-- Witness for C5 on a concrete stopped pool with one queued task. -/
theorem C5_worker_loop_witness :
    worker_thread_step wSt =
      WorkerAct.run tPlain { wSt with tasksA := [],
                                      inFlight := wSt.inFlight + 1 } :=
  C5_worker_loop.2.1 wSt tPlain [] rfl

/-! Field-level description of `execute_task`, used by several proofs. -/

theorem execute_task_completed (s : PoolSt) (t : Task) :
    (execute_task s t).completedTasks =
      if s.enableStats = true then s.completedTasks + 1
      else s.completedTasks := by
  by_cases hs : s.enableStats <;> by_cases ht : t.throws <;>
    simp [execute_task, runEnvelope, hs, ht]

theorem execute_task_failed (s : PoolSt) (t : Task) :
    (execute_task s t).failedTasks = s.failedTasks := by
  by_cases hs : s.enableStats <;> by_cases ht : t.throws <;>
    simp [execute_task, runEnvelope, hs, ht]

theorem execute_task_time (s : PoolSt) (t : Task) :
    (execute_task s t).totalExecTime =
      if s.enableStats = true then s.totalExecTime + t.execTime
      else s.totalExecTime := by
  by_cases hs : s.enableStats <;> by_cases ht : t.throws <;>
    simp [execute_task, runEnvelope, hs, ht]

theorem execute_task_tasksA (s : PoolSt) (t : Task) :
    (execute_task s t).tasksA = s.tasksA := by
  by_cases hs : s.enableStats <;> by_cases ht : t.throws <;>
    simp [execute_task, runEnvelope, hs, ht]

theorem execute_task_inFlight (s : PoolSt) (t : Task) :
    (execute_task s t).inFlight = s.inFlight - 1 := by
  by_cases hs : s.enableStats <;> by_cases ht : t.throws <;>
    simp [execute_task, runEnvelope, hs, ht]

theorem execute_task_enableStats (s : PoolSt) (t : Task) :
    (execute_task s t).enableStats = s.enableStats := by
  by_cases hs : s.enableStats <;> by_cases ht : t.throws <;>
    simp [execute_task, runEnvelope, hs, ht]

theorem execute_task_totalTasks (s : PoolSt) (t : Task) :
    (execute_task s t).totalTasks = s.totalTasks := by
  by_cases hs : s.enableStats <;> by_cases ht : t.throws <;>
    simp [execute_task, runEnvelope, hs, ht]

theorem execute_task_sinks (s : PoolSt) (t : Task) :
    (execute_task s t).sinks = setSink s.sinks t.arrival
      (if t.throws = true then SinkState.failure else SinkState.value) := by
  by_cases hs : s.enableStats <;> by_cases ht : t.throws <;>
    simp [execute_task, runEnvelope, hs, ht]

/-- C6 (counterexample): the accounting identity is *not* preserved by forced
shutdown.  Starting from `ThreadPool(2, true)`, submitting one task keeps the
identity, but `shutdown_now` then discards the queued envelope without
adjusting any counter: `submitted == 1` while completed, failed, pending and
in-flight are all `0`. -/
theorem C6_accounting_counterexample :
    mkThreadPool 2 true = Except.ok freshPool ∧
    accounting freshPool ∧
    Step freshPool (submitCore freshPool cex6Task) ∧
    accounting (submitCore freshPool cex6Task) ∧
    Step (submitCore freshPool cex6Task)
      (shutdown_now (submitCore freshPool cex6Task)) ∧
    ¬ accounting (shutdown_now (submitCore freshPool cex6Task)) :=
  ⟨rfl, by decide, .submitted _ _ rfl, by decide, .forced _, by decide⟩

/-- C6 (amended): for a stats-enabled pool the accounting identity
`submitted == completed + failed + pending + in_flight` is an invariant of
submission, dequeue, task completion/failure and graceful shutdown; forced
shutdown breaks it by discarding queued envelopes without adjusting any
counter (see the counterexample). -/
theorem C6_accounting_amended (s s' : PoolSt) (hs : s.enableStats = true)
    (hacc : accounting s) (hstep : StepNF s s') : accounting s' := by
  unfold accounting total_tasks completed_tasks failed_tasks pending_tasks
    in_flight_count at *
  cases hstep with
  | submitted t h =>
    simp only [submitCore, hs, if_true, length_pushQ]
    omega
  | dequeued t rest h =>
    have hlen := length_popQ _ _ _ h
    have hne : s.tasksA ≠ [] := by
      intro h0; rw [h0] at h; simp [popQ] at h
    have hpos : 1 ≤ s.tasksA.length := by
      cases hq : s.tasksA with
      | nil => exact absurd hq hne
      | cons a l => simp
    simp only
    omega
  | finished t h =>
    rw [execute_task_totalTasks, execute_task_completed, execute_task_failed,
      execute_task_tasksA, execute_task_inFlight, hs, if_pos rfl]
    omega
  | graceful =>
    unfold shutdown
    by_cases h : s.stop <;> simp [h] <;> omega

/-- Witness for C6 (amended): one concrete submission step preserves the
identity. -/
theorem C6_accounting_amended_witness :
    accounting (submitCore freshPool tPlain) :=
  C6_accounting_amended freshPool (submitCore freshPool tPlain) rfl
    (by decide) (.submitted _ _ rfl)

/-- C7: both shutdown modes are idempotent — once either has completed
(`stop_` set, workers joined), any further `shutdown()` or `shutdown_now()`
returns at the `if (stop_) return;` check, changing nothing: the state equals
the one after the first call alone, and no worker is joined twice. -/
theorem C7_shutdown_idempotent (s : PoolSt) :
    shutdown (shutdown s) = shutdown s ∧
    shutdown_now (shutdown s) = shutdown s ∧
    shutdown (shutdown_now s) = shutdown_now s ∧
    shutdown_now (shutdown_now s) = shutdown_now s := by
  by_cases h : s.stop = true
  · simp [shutdown, shutdown_now, h]
  · simp [shutdown, shutdown_now, h]

/-- States reachable from construction keep `completed_tasks_ == 0` (and a
zero time accumulator) whenever statistics are disabled: no transition
increments a stats-guarded counter with `enable_stats_ == false`. -/
theorem stats_off_invariant (s s' : PoolSt) (hstep : Step s s')
    (hinv : s.enableStats = false →
      s.completedTasks = 0 ∧ s.totalExecTime = 0) :
    s'.enableStats = false →
      s'.completedTasks = 0 ∧ s'.totalExecTime = 0 := by
  cases hstep with
  | submitted t h =>
    intro he
    simp only [submitCore] at he ⊢
    exact hinv he
  | dequeued t rest h =>
    intro he
    exact hinv he
  | finished t h =>
    rw [execute_task_enableStats, execute_task_completed, execute_task_time]
    intro he
    rw [he]
    simpa using hinv he
  | graceful =>
    unfold shutdown
    by_cases h : s.stop <;> simp [h] <;> exact fun he => hinv he
  | forced =>
    unfold shutdown_now
    by_cases h : s.stop <;> simp [h] <;> exact fun he => hinv he

/-- C8: `average_execution_time()` returns
`total_execution_time / completed_count` whenever the completed count is
non-zero and `0` when it is zero.  (The `!enable_stats_` early-out in the
code coincides with the `completed == 0` case on every reachable state,
since a stats-disabled pool never increments `completed_tasks_` —
`stats_off_invariant`.) -/
theorem C8_average_execution_time (s : PoolSt)
    (hinv : s.enableStats = false → s.completedTasks = 0) :
    average_execution_time s =
      if s.completedTasks = 0 then 0
      else (s.totalExecTime : ℚ) / (s.completedTasks : ℚ) := by
  unfold average_execution_time
  by_cases h0 : s.completedTasks = 0
  · simp [h0]
  · have hstats : s.enableStats = true := by
      by_contra hh
      exact h0 (hinv (by simpa using hh))
    simp [h0, hstats]

/-- Witness for C8: a pool with 2 completed tasks and 10 µs accumulated
reports an average of 5 µs. -/
theorem C8_average_execution_time_witness :
    average_execution_time c8St = 5 := by
  rw [C8_average_execution_time c8St (by decide)]
  norm_num [c8St, freshPool]

/-- C9: construction fails with `InvalidConfiguration` exactly when the
requested thread count is 0; for any `N > 0` it succeeds with `N` workers
started and `thread_count() == N`. -/
theorem C9_construction (n : Nat) (e : Bool) :
    (mkThreadPool n e = Except.error PoolError.invalidConfiguration ↔
      n = 0) ∧
    (∀ s, mkThreadPool n e = Except.ok s →
      thread_count s = n ∧ s.stop = false ∧ s.tasksA = []) := by
  constructor
  · constructor
    · intro h
      by_contra hn
      simp [mkThreadPool, hn] at h
    · intro h
      subst h
      rfl
  · intro s hs
    by_cases hn : n = 0
    · subst hn
      simp [mkThreadPool] at hs
    · simp [mkThreadPool, hn] at hs
      rw [← hs]
      exact ⟨rfl, rfl, rfl⟩

/-- Witness for C9 at thread counts 0 and 2. -/
theorem C9_construction_witness :
    (mkThreadPool 0 true = Except.error PoolError.invalidConfiguration) ∧
    thread_count freshPool = 2 :=
  ⟨(C9_construction 0 true).1.mpr rfl,
    ((C9_construction 2 true).2 freshPool rfl).1⟩

/-- C10: with statistics disabled at construction, submission and execution
leave the submitted/completed/failed counters and the time accumulator
untouched, `average_execution_time()` is 0, while the queue effect of
`submit` and the execution effect on the result sink and in-flight set are
identical to a stats-enabled pool. -/
theorem C10_stats_disabled_frame (s : PoolSt) (t : Task)
    (h : s.enableStats = false) :
    (submitCore s t).totalTasks = s.totalTasks ∧
    (submitCore s t).tasksA = pushQ s.tasksA t ∧
    (execute_task s t).completedTasks = s.completedTasks ∧
    (execute_task s t).failedTasks = s.failedTasks ∧
    (execute_task s t).totalExecTime = s.totalExecTime ∧
    average_execution_time s = 0 ∧
    (∀ b, (submitCore { s with enableStats := b } t).tasksA =
      (submitCore s t).tasksA) ∧
    (∀ b, (execute_task { s with enableStats := b } t).sinks =
        (execute_task s t).sinks ∧
      (execute_task { s with enableStats := b } t).tasksA =
        (execute_task s t).tasksA ∧
      (execute_task { s with enableStats := b } t).inFlight =
        (execute_task s t).inFlight) := by
  refine ⟨by simp [submitCore, h], by simp [submitCore],
    by rw [execute_task_completed, h]; simp, execute_task_failed s t,
    by rw [execute_task_time, h]; simp,
    by simp [average_execution_time, h], ?_, ?_⟩
  · intro b
    simp [submitCore]
  · intro b
    refine ⟨?_, ?_, ?_⟩
    · rw [execute_task_sinks, execute_task_sinks]
    · rw [execute_task_tasksA, execute_task_tasksA]
    · rw [execute_task_inFlight, execute_task_inFlight]

/-- Witness for C10 on a concrete stats-disabled pool. -/
theorem C10_stats_disabled_frame_witness :
    (execute_task c10St tPlain).completedTasks = c10St.completedTasks ∧
    average_execution_time c10St = 0 :=
  ⟨(C10_stats_disabled_frame c10St tPlain rfl).2.2.1,
    (C10_stats_disabled_frame c10St tPlain rfl).2.2.2.2.2.1⟩

end ThreadPoolSpec
